import Mathlib

/-!
Verification of the file-selection and deletion engine of
`system_cleanup/cleanup.py` (functions `get_files_to_delete`,
`cleanup_files`, `cleanup_empty_dirs`).

Shallow embedding conventions:

* A filesystem path is a list of name components (`Path`); it models a
  canonical absolute path string, `joinPath` renders it the way Python's
  `os.path.join` builds the strings the script compares and returns.
  Equality of `Path` values models equality of those strings.
* The directory tree is the inductive `FSNode`.  A symbolic link carries
  the metadata of its resolved target (`SymTarget`) rather than a target
  path; the contents of a directory a symlink points to are not modelled
  (the script never descends through a symlink except when a root path
  itself resolves to a directory, a case outside the claims below).
* `st_mtime` and the clock `current_time` are integers (seconds); the
  script compares them with `>` exactly as the source does.
* A directory carries a `readable` flag: an unreadable directory is one
  whose listing fails with a permission error.  `os.walk` (called with
  the default `onerror=None`) silently yields nothing for such a
  directory.  Regular files reached by the walk are assumed statable;
  the per-file `except` of lines 146-147 is not otherwise modelled.
* `cleanup_files` only touches the filesystem through `os.path.getsize`
  and `os.remove` on the candidate paths, so its state (`DelFS`) is a
  flat association of paths to sizes, together with the sets of paths on
  which `getsize` (resp. `remove`) raises an OS-level error; both errors
  are caught by the `except` of lines 178-179.
-/

namespace SystemCleanup

abbrev Path := List String

/-- Render a component path as the absolute path string Python works with
(for components `["tmp", "t", "a.tmp"]` this is `"/tmp/t/a.tmp"`). -/
def joinPath (p : Path) : String :=
  p.foldl (fun acc c => acc ++ "/" ++ c) ""

/-- Last component of a path (the file name `os.walk` hands to the loop). -/
def lastName (p : Path) : String := p.getLastD ""

/-- Embedding of Python `str.endswith`, as a suffix test on the characters. -/
def endsWithStr (s suff : String) : Bool := suff.data.isSuffixOf s.data

/-- Embedding of `not extensions or any(x.endswith(ext) for ext in extensions)`
(cleanup.py lines 129 and 144). -/
def extMatch (extensions : List String) (s : String) : Bool :=
  extensions.isEmpty || extensions.any (fun ext => endsWithStr s ext)

/-- What a symbolic link resolves to: a regular file with the given
metadata, a directory, or nothing (dangling link). -/
inductive SymTarget where
  | toFile (mtime : Int) (size : Nat)
  | toDir
  | broken
deriving DecidableEq, Repr

/-- A node of the directory tree: a regular file with mtime and size, a
symbolic link, or a directory with a listing-permission flag and an
ordered list of named children (the order models directory-listing
order, which `os.walk` preserves). -/
inductive FSNode where
  | file (mtime : Int) (size : Nat)
  | symlink (target : SymTarget)
  | dir (readable : Bool) (entries : List (String × FSNode))
deriving Repr

/-- Induction principle for `FSNode` giving the hypothesis on every child
of a directory (derived from the nested recursor). -/
theorem FSNode.indOn (P : FSNode → Prop)
    (hf : ∀ m s, P (.file m s))
    (hs : ∀ t, P (.symlink t))
    (hd : ∀ r es, (∀ e ∈ es, P e.2) → P (.dir r es)) :
    ∀ n, P n := by
  intro n
  induction n using FSNode.rec (motive_2 := fun es => ∀ e ∈ es, P e.2)
    (motive_3 := fun e => P e.2) with
  | file m s => exact hf m s
  | symlink t => exact hs t
  | dir r es ih => exact hd r es ih
  | nil =>
      rename_i e he
      exact absurd he (List.not_mem_nil e)
  | cons a as iha ihas =>
      rename_i e he
      rcases List.mem_cons.1 he with h | h
      · subst h; exact iha
      · exact ihas e h
  | mk a b hb => exact hb

/-- First entry with the given name in a directory listing. -/
def lookupEntry : List (String × FSNode) → String → Option FSNode
  | [], _ => none
  | (a, n) :: rest, c => if a = c then some n else lookupEntry rest c

/-- Node reached by following a component path from `n` (intermediate
symlinks are not modelled; see the header). -/
def FSNode.lookup : Path → FSNode → Option FSNode
  | [], n => some n
  | c :: cs, .dir _ es =>
      match lookupEntry es c with
      | some m => FSNode.lookup cs m
      | none => none
  | _ :: _, _ => none

/-- Embedding of `os.path.exists` at a resolved node: false only for a
dangling symlink. -/
def FSNode.osExists : FSNode → Bool
  | .symlink .broken => false
  | _ => true

/-- Embedding of `os.path.isfile` (follows symbolic links). -/
def FSNode.isfile : FSNode → Bool
  | .file _ _ => true
  | .symlink (.toFile _ _) => true
  | _ => false

/-- Embedding of `os.path.islink`. -/
def FSNode.islink : FSNode → Bool
  | .symlink _ => true
  | _ => false

/-- Embedding of `os.stat(...).st_mtime` (follows symbolic links). -/
def FSNode.statMtime : FSNode → Option Int
  | .file m _ => some m
  | .symlink (.toFile m _) => some m
  | _ => none

/-- The `for file in files` loop of the walk (cleanup.py lines 136-147):
symbolic links are skipped (`os.path.islink`, line 138), a regular file
is appended when it is strictly older than the threshold and its NAME
matches an extension (lines 143-145).  Only file-like entries occur in
the walk's `files` list; directory entries yield nothing here. -/
def walkFilesOf (now ageSec : Int) (exts : List String) (base : Path)
    (es : List (String × FSNode)) : List Path :=
  es.filterMap fun e =>
    match e.2 with
    | .file m _ =>
        if (decide (now - m > ageSec) && extMatch exts e.1) = true then
          some (base ++ [e.1])
        else none
    | _ => none

mutual

/-- Embedding of `os.walk(path, topdown=True)` as used on lines 132-147:
visiting directory node `n` at path `base`, yield this directory's
matching files first, then recurse into its (non-pruned) subdirectories
in listing order.  An unreadable directory yields nothing (`os.walk`
with `onerror=None`); symbolic links to directories are listed among
`dirs` but never descended into (`followlinks=False`), so they
contribute nothing. -/
def walkNode (now ageSec : Int) (exts : List String) (excl : List Path) :
    Path → FSNode → List Path
  | base, .dir true es =>
      walkFilesOf now ageSec exts base es ++ walkDirs now ageSec exts excl base es
  | _, _ => []

/-- The recursion of `os.walk` over the subdirectory list, after the
in-place pruning `dirs[:] = [d for d in dirs if os.path.join(root, d)
not in exclude_dirs]` (cleanup.py line 134). -/
def walkDirs (now ageSec : Int) (exts : List String) (excl : List Path) :
    Path → List (String × FSNode) → List Path
  | _, [] => []
  | base, (name, n) :: rest =>
      (match n with
       | .dir _ _ =>
           if (base ++ [name]) ∈ excl then []
           else walkNode now ageSec exts excl (base ++ [name]) n
       | _ => []) ++ walkDirs now ageSec exts excl base rest

end

/-- Body of the `for path in paths` loop of `get_files_to_delete`
(cleanup.py lines 120-149): a missing root (`os.path.exists` false,
which includes a dangling symlink) is skipped with a warning; a root
that `os.path.isfile` accepts (a regular file OR a symlink resolving to
a regular file) is tested directly, with the extension matched against
the FULL path string (line 129); otherwise the root is walked. -/
def selectRoot (fs : FSNode) (now ageSec : Int) (exts : List String)
    (excl : List Path) (p : Path) : List Path :=
  match FSNode.lookup p fs with
  | none => []
  | some n =>
      if n.osExists then
        if n.isfile then
          match n.statMtime with
          | some m =>
              if (decide (now - m > ageSec) && extMatch exts (joinPath p)) = true then
                [p]
              else []
          | none => []
        else walkNode now ageSec exts excl p n
      else []

/-- Embedding of `get_files_to_delete(paths, age_days, extensions,
exclude_dirs)` (cleanup.py lines 100-151) against filesystem `fs` with
clock `now`.  `age_seconds = age_days * 86400` (line 115). -/
def get_files_to_delete (fs : FSNode) (now : Int) (paths : List Path)
    (age_days : Nat) (extensions : List String) (exclude_dirs : List Path) :
    List Path :=
  paths.flatMap (selectRoot fs now ((age_days : Int) * 86400) extensions exclude_dirs)

/-- File-like entries of a listing, paired with their nodes: what appears
in the walk's `files` list (regular files, symlinks to files, dangling
symlinks), before any skipping or filtering. -/
def enumFilesOf (base : Path) (es : List (String × FSNode)) :
    List (Path × FSNode) :=
  es.filterMap fun e =>
    match e.2 with
    | .file _ _ => some (base ++ [e.1], e.2)
    | .symlink (.toFile _ _) => some (base ++ [e.1], e.2)
    | .symlink .broken => some (base ++ [e.1], e.2)
    | _ => none

mutual

/-- Every file-like path the walk of lines 132-147 enumerates (its
`files` lists), with exclusion pruning applied, in traversal order:
the walk's candidate universe before the age/extension/symlink tests. -/
def enumNode (excl : List Path) : Path → FSNode → List (Path × FSNode)
  | base, .dir true es => enumFilesOf base es ++ enumDirs excl base es
  | _, _ => []

/-- Companion of `enumNode` over a pruned subdirectory list. -/
def enumDirs (excl : List Path) : Path → List (String × FSNode) →
    List (Path × FSNode)
  | _, [] => []
  | base, (name, n) :: rest =>
      (match n with
       | .dir _ _ =>
           if (base ++ [name]) ∈ excl then []
           else enumNode excl (base ++ [name]) n
       | _ => []) ++ enumDirs excl base rest

end

/-- The per-file test of the walk, as a partial map on enumerated
candidates: keep a regular file iff it is strictly older than the
threshold and its name matches (symbolic links are dropped, line 138). -/
def keepPred (now ageSec : Int) (exts : List String) (c : Path × FSNode) :
    Option Path :=
  match c.2 with
  | .file m _ =>
      if (decide (now - m > ageSec) && extMatch exts (lastName c.1)) = true then
        some c.1
      else none
  | _ => none

/-- State seen by `cleanup_files`: existing files with their sizes, plus
the paths where `os.path.getsize` (resp. `os.remove`) raises an OS-level
error (permission denied or any other `OSError`). -/
structure DelFS where
  files : List (Path × Nat)
  denied : List Path
  removeDenied : List Path
deriving Repr, DecidableEq

/-- Size of an existing file, `none` when the path does not exist
(`os.path.getsize` raising `FileNotFoundError`). -/
def assocFind : List (Path × Nat) → Path → Option Nat
  | [], _ => none
  | (a, v) :: rest, p => if a = p then some v else assocFind rest p

/-- One iteration of the `for file_path in files_list` loop of
`cleanup_files` (cleanup.py lines 168-179): size the file, then in live
mode remove it and accumulate; any `FileNotFoundError`, permission
error or other `OSError` is caught (lines 178-179) and the iteration
leaves the accumulators and the filesystem unchanged. -/
def cleanupStep (dry_run : Bool) (acc : (Nat × Nat) × DelFS) (p : Path) :
    (Nat × Nat) × DelFS :=
  if p ∈ acc.2.denied then acc
  else
    match assocFind acc.2.files p with
    | none => acc
    | some sz =>
        if dry_run then acc
        else if p ∈ acc.2.removeDenied then acc
        else
          ((acc.1.1 + 1, acc.1.2 + sz),
           { acc.2 with files := acc.2.files.filter (fun e => ¬(e.1 = p)) })

/-- Embedding of `cleanup_files(files_list, dry_run)` (cleanup.py lines
154-181); returns the `(deleted_count, total_size_freed)` pair together
with the final filesystem state. -/
def cleanup_files (files_list : List Path) (dry_run : Bool) (fs : DelFS) :
    (Nat × Nat) × DelFS :=
  files_list.foldl (cleanupStep dry_run) ((0, 0), fs)

/-- Removal pass of one bottom-up triple of `cleanup_empty_dirs`
(cleanup.py lines 202-213): each subdirectory that is listable and now
has zero entries is removed (`os.rmdir`) and counted; `os.listdir` on an
unreadable directory, and `os.rmdir` on a symlink or non-empty
directory, raise and are caught (lines 212-213), leaving the entry in
place. -/
def removeEmptyPass : List (String × FSNode) → List (String × FSNode) × Nat
  | [] => ([], 0)
  | (name, n) :: rest =>
      let (rest', c) := removeEmptyPass rest
      match n with
      | .dir true [] => (rest', c + 1)
      | _ => ((name, n) :: rest', c)

mutual

/-- Effect of the `os.walk(path, topdown=False)` loop of
`cleanup_empty_dirs` (cleanup.py lines 201-213) on the subtree rooted at
a node: since the walk is bottom-up, every child subtree is processed
before this node's own triple, whose removal pass then sees the already
pruned children (a child emptied by the removal of its own children is
removed in the same call).  An unreadable directory yields no triples,
and files and symlinks are untouched. -/
def pruneNode : FSNode → FSNode × Nat
  | .dir true es =>
      let (es1, c1) := pruneEntries es
      let (es2, c2) := removeEmptyPass es1
      (.dir true es2, c1 + c2)
  | n => (n, 0)

/-- Bottom-up processing of each child subtree, in listing order,
summing the removal counts. -/
def pruneEntries : List (String × FSNode) → List (String × FSNode) × Nat
  | [] => ([], 0)
  | (name, n) :: rest =>
      let (n', c) := pruneNode n
      let (rest', cr) := pruneEntries rest
      ((name, n') :: rest', c + cr)

end

/-- Replace the node at a path (used to state what the pruner leaves in
the global tree). -/
def FSNode.update : Path → FSNode → FSNode → FSNode
  | [], new, _ => new
  | c :: cs, new, .dir r es =>
      .dir r (es.map fun e => if e.1 = c then (e.1, FSNode.update cs new e.2) else e)
  | _ :: _, _, n => n

/-- Body of the `for path in paths` loop of `cleanup_empty_dirs`
(cleanup.py lines 197-213): a root that is missing or not a directory is
skipped (line 198); in dry-run mode the walk only logs, removes nothing
and counts nothing (lines 206-207); in live mode the subtree is pruned
bottom-up and the root node itself — which is never a member of any
triple's `dirs` list — is left in place. -/
def pruneRoot (dry_run : Bool) (acc : FSNode × Nat) (p : Path) : FSNode × Nat :=
  match FSNode.lookup p acc.1 with
  | some (.dir r es) =>
      if dry_run then acc
      else
        let (n', c) := pruneNode (.dir r es)
        (FSNode.update p n' acc.1, acc.2 + c)
  | _ => acc

/-- Embedding of `cleanup_empty_dirs(paths, dry_run)` (cleanup.py lines
184-215); returns the final tree and `deleted_count`. -/
def cleanup_empty_dirs (paths : List Path) (dry_run : Bool) (fs : FSNode) :
    FSNode × Nat :=
  paths.foldl (pruneRoot dry_run) (fs, 0)

@[simp]
theorem lastName_concat (base : Path) (x : String) :
    lastName (base ++ [x]) = x := by
  simp [lastName]

theorem walkFilesOf_eq (now ageSec : Int) (exts : List String) (base : Path)
    (es : List (String × FSNode)) :
    walkFilesOf now ageSec exts base es =
      (enumFilesOf base es).filterMap (keepPred now ageSec exts) := by
  rw [enumFilesOf, walkFilesOf, List.filterMap_filterMap]
  apply List.filterMap_congr
  intro e _
  obtain ⟨name, n⟩ := e
  cases n with
  | file m s => simp [keepPred]
  | symlink t => cases t <;> simp [keepPred]
  | dir r es' => simp

theorem walkNode_eq (now ageSec : Int) (exts : List String) (excl : List Path) :
    ∀ n base, walkNode now ageSec exts excl base n =
      (enumNode excl base n).filterMap (keepPred now ageSec exts) := by
  apply FSNode.indOn
    (P := fun n => ∀ base, walkNode now ageSec exts excl base n =
      (enumNode excl base n).filterMap (keepPred now ageSec exts))
  · intro m s base; rfl
  · intro t base; cases t <;> rfl
  · intro r es h base
    cases r with
    | false => rfl
    | true =>
        have hdirs : ∀ es', (∀ e ∈ es', ∀ base',
            walkNode now ageSec exts excl base' e.2 =
              (enumNode excl base' e.2).filterMap (keepPred now ageSec exts)) →
            walkDirs now ageSec exts excl base es' =
              (enumDirs excl base es').filterMap (keepPred now ageSec exts) := by
          intro es'
          induction es' with
          | nil => intro _; rfl
          | cons e rest ih =>
              intro he
              obtain ⟨name, n⟩ := e
              have hn := he (name, n) (List.mem_cons_self _ _)
              have hrest := ih fun e hm => he e (List.mem_cons_of_mem _ hm)
              cases n with
              | file m s =>
                  simpa [walkDirs, enumDirs, List.filterMap_append] using hrest
              | symlink t =>
                  simpa [walkDirs, enumDirs, List.filterMap_append] using hrest
              | dir r' es'' =>
                  by_cases hx : (base ++ [name]) ∈ excl <;>
                    simp [walkDirs, enumDirs, List.filterMap_append, hx, hrest,
                      hn (base ++ [name])]
        show walkNode now ageSec exts excl base (.dir true es) = _
        rw [show walkNode now ageSec exts excl base (.dir true es) =
              walkFilesOf now ageSec exts base es ++
                walkDirs now ageSec exts excl base es from rfl,
            show enumNode excl base (.dir true es) =
              enumFilesOf base es ++ enumDirs excl base es from rfl,
            List.filterMap_append, walkFilesOf_eq,
            hdirs es (fun e hm => h e hm)]

@[simp]
theorem enumNode_file (excl : List Path) (base : Path) (m : Int) (s : Nat) :
    enumNode excl base (.file m s) = [] := rfl

@[simp]
theorem enumNode_symlink (excl : List Path) (base : Path) (t : SymTarget) :
    enumNode excl base (.symlink t) = [] := rfl

@[simp]
theorem enumNode_dir_false (excl : List Path) (base : Path)
    (es : List (String × FSNode)) :
    enumNode excl base (.dir false es) = [] := rfl

theorem enumNode_dir_true (excl : List Path) (base : Path)
    (es : List (String × FSNode)) :
    enumNode excl base (.dir true es) =
      enumFilesOf base es ++ enumDirs excl base es := rfl

@[simp]
theorem walkNode_file (now ageSec : Int) (exts : List String) (excl : List Path)
    (base : Path) (m : Int) (s : Nat) :
    walkNode now ageSec exts excl base (.file m s) = [] := rfl

@[simp]
theorem walkNode_symlink (now ageSec : Int) (exts : List String)
    (excl : List Path) (base : Path) (t : SymTarget) :
    walkNode now ageSec exts excl base (.symlink t) = [] := rfl

@[simp]
theorem walkNode_dir_false (now ageSec : Int) (exts : List String)
    (excl : List Path) (base : Path) (es : List (String × FSNode)) :
    walkNode now ageSec exts excl base (.dir false es) = [] := rfl

theorem keepPred_eq_some (now ageSec : Int) (exts : List String)
    (c : Path × FSNode) (q : Path) :
    keepPred now ageSec exts c = some q ↔
      ∃ m s, c = (q, FSNode.file m s) ∧ now - m > ageSec ∧
        extMatch exts (lastName q) = true := by
  obtain ⟨cp, cn⟩ := c
  cases cn with
  | file m s =>
      show (if (decide (now - m > ageSec) && extMatch exts (lastName cp)) = true
            then some cp else none) = some q ↔ _
      constructor
      · intro h
        split at h
        · next hc =>
            rw [Bool.and_eq_true] at hc
            obtain ⟨h1, h2⟩ := hc
            cases h
            exact ⟨m, s, rfl, of_decide_eq_true h1, h2⟩
        · exact absurd h (by simp)
      · rintro ⟨m', s', heq, hage, hext⟩
        simp only [Prod.mk.injEq, FSNode.file.injEq] at heq
        obtain ⟨rfl, rfl, rfl⟩ := heq
        simp [hage, hext]
  | symlink t =>
      constructor
      · intro h; exact absurd h (by simp [keepPred])
      · rintro ⟨m', s', heq, -, -⟩
        simp at heq
  | dir r es =>
      constructor
      · intro h; exact absurd h (by simp [keepPred])
      · rintro ⟨m', s', heq, -, -⟩
        simp at heq

theorem mem_walkNode (now ageSec : Int) (exts : List String) (excl : List Path)
    (n : FSNode) (base q : Path) :
    q ∈ walkNode now ageSec exts excl base n ↔
      ∃ m s, (q, FSNode.file m s) ∈ enumNode excl base n ∧ now - m > ageSec ∧
        extMatch exts (lastName q) = true := by
  rw [walkNode_eq, List.mem_filterMap]
  constructor
  · rintro ⟨c, hc, hk⟩
    rw [keepPred_eq_some] at hk
    obtain ⟨m, s, rfl, hage, hext⟩ := hk
    exact ⟨m, s, hc, hage, hext⟩
  · rintro ⟨m, s, hc, hage, hext⟩
    exact ⟨(q, FSNode.file m s), hc, (keepPred_eq_some ..).2 ⟨m, s, rfl, hage, hext⟩⟩

theorem mem_selectRoot (fs : FSNode) (now ageSec : Int) (exts : List String)
    (excl : List Path) (p q : Path) :
    q ∈ selectRoot fs now ageSec exts excl p ↔
      (q = p ∧ ∃ n, FSNode.lookup p fs = some n ∧ n.isfile = true ∧
        ∃ m, n.statMtime = some m ∧ now - m > ageSec ∧
          extMatch exts (joinPath p) = true) ∨
      (∃ n, FSNode.lookup p fs = some n ∧ n.osExists = true ∧ n.isfile = false ∧
        ∃ m s, (q, FSNode.file m s) ∈ enumNode excl p n ∧ now - m > ageSec ∧
          extMatch exts (lastName q) = true) := by
  cases hl : FSNode.lookup p fs with
  | none =>
      have hsel : selectRoot fs now ageSec exts excl p = [] := by
        unfold selectRoot; rw [hl]
      simp [hsel]
  | some n =>
      cases n with
      | file m s =>
          have hsel : selectRoot fs now ageSec exts excl p =
              (if (decide (now - m > ageSec) && extMatch exts (joinPath p)) = true
               then [p] else []) := by
            unfold selectRoot; rw [hl]; rfl
          rw [hsel]
          by_cases hage : now - m > ageSec <;>
            by_cases hext : extMatch exts (joinPath p) = true <;>
            simp [hage, hext, FSNode.isfile, FSNode.osExists, FSNode.statMtime]
      | symlink t =>
          cases t with
          | toFile m s =>
              have hsel : selectRoot fs now ageSec exts excl p =
                  (if (decide (now - m > ageSec) && extMatch exts (joinPath p)) = true
                   then [p] else []) := by
                unfold selectRoot; rw [hl]; rfl
              rw [hsel]
              by_cases hage : now - m > ageSec <;>
                by_cases hext : extMatch exts (joinPath p) = true <;>
                simp [hage, hext, FSNode.isfile, FSNode.osExists, FSNode.statMtime]
          | toDir =>
              have hsel : selectRoot fs now ageSec exts excl p = [] := by
                unfold selectRoot; rw [hl]; rfl
              simp [hsel, FSNode.isfile, FSNode.osExists, FSNode.statMtime]
          | broken =>
              have hsel : selectRoot fs now ageSec exts excl p = [] := by
                unfold selectRoot; rw [hl]; rfl
              simp [hsel, FSNode.isfile, FSNode.osExists]
      | dir r es =>
          have hsel : selectRoot fs now ageSec exts excl p =
              walkNode now ageSec exts excl p (.dir r es) := by
            unfold selectRoot; rw [hl]; rfl
          rw [hsel, mem_walkNode]
          simp [FSNode.isfile, FSNode.osExists]

/-- Well-formed directory tree: sibling names are distinct at every level
(true of any real filesystem; directory listings cannot repeat a name). -/
inductive NodupFS : FSNode → Prop
  | file (m : Int) (s : Nat) : NodupFS (.file m s)
  | symlink (t : SymTarget) : NodupFS (.symlink t)
  | dir (r : Bool) (es : List (String × FSNode))
      (hn : (es.map Prod.fst).Nodup)
      (hrec : ∀ e ∈ es, NodupFS e.2) : NodupFS (.dir r es)

theorem lookupEntry_mem : ∀ {es : List (String × FSNode)} {c : String}
    {v : FSNode}, lookupEntry es c = some v → (c, v) ∈ es := by
  intro es
  induction es with
  | nil => intro c v h; exact absurd h (by simp [lookupEntry])
  | cons e rest ih =>
      intro c v h
      obtain ⟨a, w⟩ := e
      by_cases hac : a = c
      · subst hac
        rw [lookupEntry, if_pos rfl] at h
        cases h
        exact List.mem_cons_self _ _
      · rw [lookupEntry, if_neg hac] at h
        exact List.mem_cons_of_mem _ (ih h)

theorem lookupEntry_of_nodup : ∀ {es : List (String × FSNode)} {c : String}
    {v : FSNode}, (es.map Prod.fst).Nodup → (c, v) ∈ es →
    lookupEntry es c = some v := by
  intro es
  induction es with
  | nil => intro c v _ h; exact absurd h (List.not_mem_nil _)
  | cons e rest ih =>
      intro c v hn hm
      obtain ⟨a, w⟩ := e
      rw [List.map_cons, List.nodup_cons] at hn
      rcases List.mem_cons.1 hm with h | h
      · cases h
        rw [lookupEntry, if_pos rfl]
      · by_cases hac : a = c
        · subst hac
          exact absurd (List.mem_map_of_mem Prod.fst h) hn.1
        · rw [lookupEntry, if_neg hac]
          exact ih hn.2 h

theorem nodupFS_lookup : ∀ {p : Path} {n m : FSNode}, NodupFS n →
    FSNode.lookup p n = some m → NodupFS m := by
  intro p
  induction p with
  | nil => intro n m hn h; cases h; exact hn
  | cons c cs ih =>
      intro n m hn h
      cases n with
      | file m' s' => exact absurd h (by simp [FSNode.lookup])
      | symlink t => exact absurd h (by simp [FSNode.lookup])
      | dir r es =>
          rw [FSNode.lookup] at h
          cases hk : lookupEntry es c with
          | none => rw [hk] at h; exact absurd h (by simp)
          | some k =>
              rw [hk] at h
              cases hn with
              | dir r es hnd hrec =>
                  exact ih (hrec (c, k) (lookupEntry_mem hk)) h

theorem lookup_append : ∀ (a b : Path) (n : FSNode),
    FSNode.lookup (a ++ b) n = (FSNode.lookup a n).bind (FSNode.lookup b) := by
  intro a
  induction a with
  | nil => intro b n; rfl
  | cons c cs ih =>
      intro b n
      cases n with
      | file m s => rfl
      | symlink t => rfl
      | dir r es =>
          show (match lookupEntry es c with
                | some m => FSNode.lookup (cs ++ b) m
                | none => none) =
              (match lookupEntry es c with
                | some m => FSNode.lookup cs m
                | none => none).bind (FSNode.lookup b)
          cases lookupEntry es c with
          | none => rfl
          | some k => exact ih b k

theorem enumDirs_nil (excl : List Path) (base : Path) :
    enumDirs excl base [] = [] := rfl

theorem enumDirs_cons_file (excl : List Path) (base : Path) (name : String)
    (m : Int) (s : Nat) (rest : List (String × FSNode)) :
    enumDirs excl base ((name, .file m s) :: rest) =
      enumDirs excl base rest := rfl

theorem enumDirs_cons_symlink (excl : List Path) (base : Path) (name : String)
    (t : SymTarget) (rest : List (String × FSNode)) :
    enumDirs excl base ((name, .symlink t) :: rest) =
      enumDirs excl base rest := rfl

theorem enumDirs_cons_dir (excl : List Path) (base : Path) (name : String)
    (r : Bool) (es' : List (String × FSNode)) (rest : List (String × FSNode)) :
    enumDirs excl base ((name, .dir r es') :: rest) =
      (if (base ++ [name]) ∈ excl then []
       else enumNode excl (base ++ [name]) (.dir r es')) ++
        enumDirs excl base rest := rfl

theorem mem_enumDirs (excl : List Path) (base : Path) (c : Path × FSNode) :
    ∀ es : List (String × FSNode),
    c ∈ enumDirs excl base es ↔
      ∃ e ∈ es, (∃ r' es', e.2 = FSNode.dir r' es') ∧ (base ++ [e.1]) ∉ excl ∧
        c ∈ enumNode excl (base ++ [e.1]) e.2 := by
  intro es
  induction es with
  | nil => rw [enumDirs_nil]; simp
  | cons e rest ih =>
      obtain ⟨name, n⟩ := e
      cases n with
      | file m s =>
          rw [enumDirs_cons_file, ih]
          constructor
          · rintro ⟨e', he', hd, hx, hc⟩
            exact ⟨e', List.mem_cons_of_mem _ he', hd, hx, hc⟩
          · rintro ⟨e', he', hd, hx, hc⟩
            rcases List.mem_cons.1 he' with h | h
            · subst h
              obtain ⟨r', es', hdd⟩ := hd
              simp at hdd
            · exact ⟨e', h, hd, hx, hc⟩
      | symlink t =>
          rw [enumDirs_cons_symlink, ih]
          constructor
          · rintro ⟨e', he', hd, hx, hc⟩
            exact ⟨e', List.mem_cons_of_mem _ he', hd, hx, hc⟩
          · rintro ⟨e', he', hd, hx, hc⟩
            rcases List.mem_cons.1 he' with h | h
            · subst h
              obtain ⟨r', es', hdd⟩ := hd
              simp at hdd
            · exact ⟨e', h, hd, hx, hc⟩
      | dir r' es' =>
          rw [enumDirs_cons_dir, List.mem_append, ih]
          by_cases hx : (base ++ [name]) ∈ excl
          · rw [if_pos hx]
            constructor
            · rintro (hm | ⟨e', he', hd, hx', hc⟩)
              · simp at hm
              · exact ⟨e', List.mem_cons_of_mem _ he', hd, hx', hc⟩
            · rintro ⟨e', he', hd, hx', hc⟩
              rcases List.mem_cons.1 he' with h | h
              · subst h
                exact absurd hx hx'
              · exact Or.inr ⟨e', h, hd, hx', hc⟩
          · rw [if_neg hx]
            constructor
            · rintro (hm | ⟨e', he', hd, hx', hc⟩)
              · exact ⟨(name, .dir r' es'), List.mem_cons_self _ _, ⟨r', es', rfl⟩, hx, hm⟩
              · exact ⟨e', List.mem_cons_of_mem _ he', hd, hx', hc⟩
            · rintro ⟨e', he', hd, hx', hc⟩
              rcases List.mem_cons.1 he' with h | h
              · subst h
                exact Or.inl hc
              · exact Or.inr ⟨e', h, hd, hx', hc⟩

theorem enumFilesOf_shape (base : Path) (es : List (String × FSNode))
    (c : Path × FSNode) :
    c ∈ enumFilesOf base es → ∃ e ∈ es, c = (base ++ [e.1], e.2) := by
  rw [enumFilesOf, List.mem_filterMap]
  rintro ⟨e, he, hsome⟩
  cases hn : e.2 with
  | file m s =>
      rw [hn] at hsome; cases hsome
      exact ⟨e, he, by rw [hn]⟩
  | symlink t =>
      cases t with
      | toFile m s =>
          rw [hn] at hsome; cases hsome
          exact ⟨e, he, by rw [hn]⟩
      | toDir => rw [hn] at hsome; cases hsome
      | broken =>
          rw [hn] at hsome; cases hsome
          exact ⟨e, he, by rw [hn]⟩
  | dir r es' => rw [hn] at hsome; cases hsome

theorem enum_lookup {n : FSNode} (hn : NodupFS n) :
    ∀ {excl : List Path} {base q : Path} {nd : FSNode},
    (q, nd) ∈ enumNode excl base n →
      ∃ t, t ≠ [] ∧ q = base ++ t ∧ FSNode.lookup t n = some nd := by
  induction hn with
  | file m s => intro excl base q nd h; simp at h
  | symlink t => intro excl base q nd h; simp at h
  | dir r es hnd hrec ih =>
      intro excl base q nd h
      cases r with
      | false => simp at h
      | true =>
          rw [enumNode_dir_true, List.mem_append] at h
          rcases h with h | h
          · obtain ⟨e, he, hc⟩ := enumFilesOf_shape base es _ h
            simp only [Prod.mk.injEq] at hc
            obtain ⟨rfl, rfl⟩ := hc
            refine ⟨[e.1], by simp, rfl, ?_⟩
            show (match lookupEntry es e.1 with
                  | some m => FSNode.lookup [] m
                  | none => none) = some e.2
            rw [lookupEntry_of_nodup hnd (by exact he)]
            rfl
          · rw [mem_enumDirs] at h
            obtain ⟨e, he, ⟨r', es', hd⟩, hx, hc⟩ := h
            obtain ⟨t', ht'ne, rfl, hlk⟩ := ih e he hc
            refine ⟨e.1 :: t', by simp, by simp, ?_⟩
            show (match lookupEntry es e.1 with
                  | some m => FSNode.lookup t' m
                  | none => none) = some nd
            rw [lookupEntry_of_nodup hnd (by exact he)]
            exact hlk

theorem enum_not_below {d : Path} {excl : List Path} (hd : d ∈ excl) :
    ∀ n : FSNode, ∀ base : Path, (∀ w, base ≠ d ++ w) →
      ∀ q nd, (q, nd) ∈ enumNode excl base n → ∀ w, w ≠ [] → q ≠ d ++ w := by
  have key : ∀ (base : Path) (x : String), (∀ w, base ≠ d ++ w) →
      ∀ w, w ≠ [] → base ++ [x] ≠ d ++ w := by
    intro base x hbase w hw heq
    by_cases hlen : d.length ≤ base.length
    · have hdq : d <+: base ++ [x] := ⟨w, heq.symm⟩
      have hbq : base <+: base ++ [x] := ⟨[x], rfl⟩
      obtain ⟨w', hw'⟩ := List.prefix_of_prefix_length_le hdq hbq hlen
      exact hbase w' hw'.symm
    · push_neg at hlen
      have h1 : base.length + 1 = d.length + w.length := by
        have := congrArg List.length heq
        simpa using this
      have h2 : 1 ≤ w.length := by
        cases w with
        | nil => exact absurd rfl hw
        | cons a as => simp
      omega
  apply FSNode.indOn
    (P := fun n => ∀ base : Path, (∀ w, base ≠ d ++ w) →
      ∀ q nd, (q, nd) ∈ enumNode excl base n → ∀ w, w ≠ [] → q ≠ d ++ w)
  · intro m s base _ q nd h; simp at h
  · intro t base _ q nd h; simp at h
  · intro r es hes base hbase q nd h w hw
    cases r with
    | false => simp at h
    | true =>
        rw [enumNode_dir_true, List.mem_append] at h
        rcases h with h | h
        · obtain ⟨e, he, hc⟩ := enumFilesOf_shape base es _ h
          simp only [Prod.mk.injEq] at hc
          obtain ⟨rfl, -⟩ := hc
          exact key base e.1 hbase w hw
        · rw [mem_enumDirs] at h
          obtain ⟨e, he, ⟨r', es', hdd⟩, hx, hc⟩ := h
          have hbase' : ∀ w', base ++ [e.1] ≠ d ++ w' := by
            intro w' heq
            cases w' with
            | nil =>
                rw [List.append_nil] at heq
                exact hx (heq ▸ hd)
            | cons a as => exact key base e.1 hbase (a :: as) (by simp) heq
          exact hes e he (base ++ [e.1]) hbase' q nd hc w hw

theorem filterMap_sublist_map_fst {α β : Type} (f : α × β → Option α) :
    (∀ c q, f c = some q → q = c.1) →
    ∀ l : List (α × β), List.Sublist (l.filterMap f) (l.map Prod.fst) := by
  intro hf l
  induction l with
  | nil => simp
  | cons c rest ih =>
      rw [List.filterMap_cons, List.map_cons]
      cases hc : f c with
      | none => exact List.Sublist.cons _ ih
      | some q =>
          rw [hf c q hc]
          exact List.Sublist.cons₂ _ ih

theorem flatMap_sublist {α β : Type} (f g : α → List β) (l : List α)
    (h : ∀ a ∈ l, List.Sublist (f a) (g a)) :
    List.Sublist (l.flatMap f) (l.flatMap g) := by
  induction l with
  | nil => simp
  | cons a rest ih =>
      rw [List.flatMap_cons, List.flatMap_cons]
      exact List.Sublist.append (h a (List.mem_cons_self _ _))
        (ih fun a ha => h a (List.mem_cons_of_mem _ ha))

/-- The candidate universe `get_files_to_delete` inspects, in traversal
order: for each root in order, the root itself when `os.path.isfile`
accepts it, otherwise the paths of all file-like entries its walk
enumerates. -/
def reachableCands (fs : FSNode) (paths : List Path) (excl : List Path) :
    List Path :=
  paths.flatMap fun p =>
    match FSNode.lookup p fs with
    | none => []
    | some n =>
        if n.osExists then
          if n.isfile then [p]
          else (enumNode excl p n).map Prod.fst
        else []

theorem selectRoot_sublist (fs : FSNode) (now ageSec : Int)
    (exts : List String) (excl : List Path) (p : Path) :
    List.Sublist (selectRoot fs now ageSec exts excl p)
      (match FSNode.lookup p fs with
       | none => []
       | some n =>
           if n.osExists then
             if n.isfile then [p]
             else (enumNode excl p n).map Prod.fst
           else []) := by
  cases hl : FSNode.lookup p fs with
  | none =>
      have h1 : selectRoot fs now ageSec exts excl p = [] := by
        unfold selectRoot; rw [hl]
      rw [h1]
  | some n =>
      cases n with
      | file m s =>
          have h1 : selectRoot fs now ageSec exts excl p =
              (if (decide (now - m > ageSec) && extMatch exts (joinPath p)) = true
               then [p] else []) := by
            unfold selectRoot; rw [hl]; rfl
          rw [h1]
          show List.Sublist
            (if (decide (now - m > ageSec) && extMatch exts (joinPath p)) = true
             then [p] else []) [p]
          split
          · exact List.Sublist.refl _
          · exact List.nil_sublist _
      | symlink t =>
          cases t with
          | toFile m s =>
              have h1 : selectRoot fs now ageSec exts excl p =
                  (if (decide (now - m > ageSec) && extMatch exts (joinPath p)) = true
                   then [p] else []) := by
                unfold selectRoot; rw [hl]; rfl
              rw [h1]
              show List.Sublist
                (if (decide (now - m > ageSec) && extMatch exts (joinPath p)) = true
                 then [p] else []) [p]
              split
              · exact List.Sublist.refl _
              · exact List.nil_sublist _
          | toDir =>
              have h1 : selectRoot fs now ageSec exts excl p = [] := by
                unfold selectRoot; rw [hl]; rfl
              rw [h1]
              exact List.nil_sublist _
          | broken =>
              have h1 : selectRoot fs now ageSec exts excl p = [] := by
                unfold selectRoot; rw [hl]; rfl
              rw [h1]
              exact List.nil_sublist _
      | dir r es =>
          have h1 : selectRoot fs now ageSec exts excl p =
              walkNode now ageSec exts excl p (.dir r es) := by
            unfold selectRoot; rw [hl]; rfl
          rw [h1]
          show List.Sublist (walkNode now ageSec exts excl p (.dir r es))
            ((enumNode excl p (.dir r es)).map Prod.fst)
          rw [walkNode_eq]
          refine filterMap_sublist_map_fst _ ?_ _
          intro c q hc
          rw [keepPred_eq_some] at hc
          obtain ⟨m, s, rfl, -, -⟩ := hc
          rfl

theorem cleanupStep_dry (acc : (Nat × Nat) × DelFS) (p : Path) :
    cleanupStep true acc p = acc := by
  unfold cleanupStep
  split
  · rfl
  · cases assocFind acc.2.files p <;> simp

theorem cleanupStep_failed (dry : Bool) (acc : (Nat × Nat) × DelFS) (p : Path)
    (h : p ∈ acc.2.denied ∨ assocFind acc.2.files p = none ∨
      (dry = false ∧ p ∈ acc.2.removeDenied)) :
    cleanupStep dry acc p = acc := by
  unfold cleanupStep
  rcases h with h | h | ⟨hdry, h⟩
  · rw [if_pos h]
  · split
    · rfl
    · rw [h]
  · split
    · rfl
    · rw [hdry]
      cases assocFind acc.2.files p with
      | none => rfl
      | some sz => simp [h]

theorem cleanupStep_shift (dry : Bool) (c s : Nat) (fs : DelFS) (p : Path) :
    cleanupStep dry ((c, s), fs) p =
      (((c + (cleanupStep dry ((0, 0), fs) p).1.1,
         s + (cleanupStep dry ((0, 0), fs) p).1.2)),
       (cleanupStep dry ((0, 0), fs) p).2) := by
  unfold cleanupStep
  split
  · rfl
  · cases assocFind fs.files p with
    | none => rfl
    | some sz =>
        cases dry with
        | true => rfl
        | false =>
            by_cases h : p ∈ fs.removeDenied <;> simp [h]

theorem cleanup_foldl_shift (dry : Bool) (l : List Path) :
    ∀ (c s : Nat) (fs : DelFS),
    l.foldl (cleanupStep dry) ((c, s), fs) =
      (((c + (l.foldl (cleanupStep dry) ((0, 0), fs)).1.1,
         s + (l.foldl (cleanupStep dry) ((0, 0), fs)).1.2)),
       (l.foldl (cleanupStep dry) ((0, 0), fs)).2) := by
  induction l with
  | nil => intro c s fs; simp
  | cons p rest ih =>
      intro c s fs
      rw [List.foldl_cons, List.foldl_cons, cleanupStep_shift]
      rcases hstep : cleanupStep dry ((0, 0), fs) p with ⟨⟨d1, d2⟩, fs1⟩
      rw [ih (c + d1) (s + d2) fs1, ih d1 d2 fs1]
      simp [Nat.add_assoc]

theorem assocFind_filter_ne (files : List (Path × Nat)) (p q : Path)
    (h : q ≠ p) :
    assocFind (files.filter (fun e => ¬(e.1 = p))) q = assocFind files q := by
  induction files with
  | nil => rfl
  | cons e rest ih =>
      obtain ⟨a, v⟩ := e
      by_cases hap : a = p
      · subst hap
        rw [List.filter_cons_of_neg (by simp)]
        rw [ih]
        rw [assocFind, if_neg (by simpa using fun hh => h hh.symm)]
      · rw [List.filter_cons_of_pos (by simpa using hap)]
        by_cases haq : a = q
        · subst haq
          rw [assocFind, if_pos rfl, assocFind, if_pos rfl]
        · rw [assocFind, if_neg haq, assocFind, if_neg haq, ih]

theorem cleanup_files_dry (fl : List Path) :
    ∀ fs : DelFS, cleanup_files fl true fs = ((0, 0), fs) := by
  induction fl with
  | nil => intro fs; rfl
  | cons p rest ih =>
      intro fs
      show (p :: rest).foldl (cleanupStep true) ((0, 0), fs) = ((0, 0), fs)
      rw [List.foldl_cons, cleanupStep_dry]
      exact ih fs

theorem cleanup_files_live (fl : List Path) :
    ∀ fs : DelFS, fl.Nodup →
    (∀ p ∈ fl, (assocFind fs.files p).isSome = true ∧
      p ∉ fs.denied ∧ p ∉ fs.removeDenied) →
    cleanup_files fl false fs =
      ((fl.length, (fl.filterMap (assocFind fs.files)).sum),
       { fs with files := fs.files.filter (fun e => e.1 ∉ fl) }) := by
  induction fl with
  | nil =>
      intro fs _ _
      simp [cleanup_files]
  | cons p rest ih =>
      intro fs hnd hok
      obtain ⟨hsome, hden, hrem⟩ := hok p (List.mem_cons_self _ _)
      obtain ⟨sz, hsz⟩ := Option.isSome_iff_exists.mp hsome
      have hstep : cleanupStep false ((0, 0), fs) p =
          ((1, sz), { fs with files := fs.files.filter (fun e => ¬(e.1 = p)) }) := by
        unfold cleanupStep
        rw [if_neg (by simpa using hden)]
        simp only [hsz]
        rw [if_neg (by simp), if_neg (by simpa using hrem)]
        simp
      rw [cleanup_files, List.foldl_cons, hstep, cleanup_foldl_shift]
      have hrest := ih { fs with files := fs.files.filter (fun e => ¬(e.1 = p)) }
        (List.Nodup.of_cons hnd)
        (by
          intro q hq
          have hqp : q ≠ p := by
            rintro rfl
            exact (List.nodup_cons.1 hnd).1 hq
          obtain ⟨hsome', hd', hr'⟩ := hok q (List.mem_cons_of_mem _ hq)
          refine ⟨?_, hd', hr'⟩
          rw [assocFind_filter_ne _ _ _ hqp]
          exact hsome')
      rw [cleanup_files] at hrest
      rw [hrest]
      have hsum : rest.filterMap
          (assocFind (fs.files.filter (fun e => ¬(e.1 = p)))) =
          rest.filterMap (assocFind fs.files) := by
        apply List.filterMap_congr
        intro q hq
        have hqp : q ≠ p := by
          rintro rfl
          exact (List.nodup_cons.1 hnd).1 hq
        exact assocFind_filter_ne _ _ _ hqp
      have hfilter : (fs.files.filter (fun e => ¬(e.1 = p))).filter
          (fun e => e.1 ∉ rest) = fs.files.filter (fun e => e.1 ∉ p :: rest) := by
        rw [List.filter_filter]
        apply List.filter_congr
        intro e _
        by_cases h1 : e.1 = p <;> by_cases h2 : e.1 ∈ rest <;>
          simp [h1, h2]
      simp only [hsum, hfilter, List.filterMap_cons, hsz, List.length_cons,
        List.sum_cons, Prod.mk.injEq]
      refine ⟨⟨?_, ?_⟩, trivial⟩
      · omega
      · trivial

theorem pruneRoot_dry (acc : FSNode × Nat) (p : Path) :
    pruneRoot true acc p = acc := by
  unfold pruneRoot
  cases FSNode.lookup p acc.1 with
  | none => rfl
  | some n => cases n <;> simp

theorem cleanup_empty_dirs_dry (paths : List Path) :
    ∀ fs : FSNode, cleanup_empty_dirs paths true fs = (fs, 0) := by
  intro fs
  show paths.foldl (pruneRoot true) (fs, 0) = (fs, 0)
  induction paths with
  | nil => rfl
  | cons p rest ih => rw [List.foldl_cons, pruneRoot_dry]; exact ih

/-- Directory trees in which every node is a readable directory (so every
leaf is an empty directory): the shape for which the pruner removes the
whole interior of the tree. -/
inductive AllEmpty : FSNode → Prop
  | dir (es : List (String × FSNode)) (h : ∀ e ∈ es, AllEmpty e.2) :
      AllEmpty (.dir true es)

mutual

/-- Number of directories lying strictly below a node. -/
def FSNode.countSubdirs : FSNode → Nat
  | .dir _ es => countEntries es
  | _ => 0

/-- Companion of `FSNode.countSubdirs` over a listing. -/
def countEntries : List (String × FSNode) → Nat
  | [] => 0
  | (_, n) :: rest =>
      (match n with | .dir _ _ => 1 | _ => 0) + n.countSubdirs +
        countEntries rest

end

theorem allEmpty_shape {n : FSNode} (h : AllEmpty n) :
    ∃ es, n = FSNode.dir true es := by
  cases h with
  | dir es _ => exact ⟨es, rfl⟩

theorem pruneEntries_pointwise (es : List (String × FSNode))
    (h : ∀ e ∈ es, pruneNode e.2 = (FSNode.dir true [], e.2.countSubdirs)) :
    pruneEntries es =
      (es.map fun e => (e.1, FSNode.dir true []),
       (es.map fun e => e.2.countSubdirs).sum) := by
  induction es with
  | nil => rfl
  | cons e rest ih =>
      obtain ⟨name, n⟩ := e
      have hn := h (name, n) (List.mem_cons_self _ _)
      have hrest := ih fun e he => h e (List.mem_cons_of_mem _ he)
      show (let (n', c) := pruneNode n
            let (rest', cr) := pruneEntries rest
            ((name, n') :: rest', c + cr)) = _
      rw [hn, hrest]
      simp

theorem removeEmptyPass_all (es : List (String × FSNode)) :
    removeEmptyPass (es.map fun e => (e.1, FSNode.dir true [])) =
      ([], es.length) := by
  induction es with
  | nil => rfl
  | cons e rest ih =>
      show (let (rest', c) :=
              removeEmptyPass (rest.map fun e => (e.1, FSNode.dir true []))
            (rest', c + 1)) = _
      rw [ih]
      simp

theorem countEntries_dirs (es : List (String × FSNode))
    (h : ∀ e ∈ es, ∃ es', e.2 = FSNode.dir true es') :
    countEntries es = es.length + (es.map fun e => e.2.countSubdirs).sum := by
  induction es with
  | nil => rfl
  | cons e rest ih =>
      obtain ⟨name, n⟩ := e
      obtain ⟨es', hes'⟩ := h (name, n) (List.mem_cons_self _ _)
      have hrest := ih fun e he => h e (List.mem_cons_of_mem _ he)
      simp only at hes'
      subst hes'
      show 1 + (FSNode.dir true es').countSubdirs + countEntries rest = _
      rw [hrest]
      simp [List.length_cons, List.map_cons, List.sum_cons]
      omega

theorem pruneNode_allEmpty {n : FSNode} (h : AllEmpty n) :
    pruneNode n = (FSNode.dir true [], n.countSubdirs) := by
  induction h with
  | dir es hes ih =>
      show (let (es1, c1) := pruneEntries es
            let (es2, c2) := removeEmptyPass es1
            (FSNode.dir true es2, c1 + c2)) = _
      rw [pruneEntries_pointwise es ih]
      show (let (es2, c2) :=
              removeEmptyPass (es.map fun e => (e.1, FSNode.dir true []))
            (FSNode.dir true es2,
             (es.map fun (e : String × FSNode) => e.2.countSubdirs).sum + c2)) = _
      rw [removeEmptyPass_all]
      show (FSNode.dir true [],
            (es.map fun (e : String × FSNode) => e.2.countSubdirs).sum +
              es.length) = _
      rw [show (FSNode.dir true es).countSubdirs = countEntries es from rfl,
        countEntries_dirs es (fun e he => allEmpty_shape (hes e he))]
      simp only [Prod.mk.injEq]
      exact ⟨trivial, by omega⟩

theorem lookupEntry_map_update (cs : Path) (n' : FSNode) (c : String) :
    ∀ (es : List (String × FSNode)) (v : FSNode), lookupEntry es c = some v →
    lookupEntry (es.map fun e =>
      if e.1 = c then (e.1, FSNode.update cs n' e.2) else e) c =
      some (FSNode.update cs n' v) := by
  intro es
  induction es with
  | nil => intro v h; exact absurd h (by simp [lookupEntry])
  | cons e rest ih =>
      intro v h
      obtain ⟨a, w⟩ := e
      by_cases hac : a = c
      · subst hac
        rw [lookupEntry, if_pos rfl] at h
        cases h
        rw [List.map_cons, if_pos rfl, lookupEntry, if_pos rfl]
      · rw [lookupEntry, if_neg hac] at h
        rw [List.map_cons, if_neg (by simpa using hac), lookupEntry,
          if_neg hac]
        exact ih v h

theorem lookup_update_self (n' : FSNode) :
    ∀ (p : Path) (fs m : FSNode), FSNode.lookup p fs = some m →
    FSNode.lookup p (FSNode.update p n' fs) = some n' := by
  intro p
  induction p with
  | nil => intro fs m _; rfl
  | cons c cs ih =>
      intro fs m h
      cases fs with
      | file mt s => exact absurd h (by simp [FSNode.lookup])
      | symlink t => exact absurd h (by simp [FSNode.lookup])
      | dir r es =>
          rw [FSNode.lookup] at h
          cases hk : lookupEntry es c with
          | none => rw [hk] at h; exact absurd h (by simp)
          | some k =>
              rw [hk] at h
              show (match lookupEntry (es.map fun e =>
                      if e.1 = c then (e.1, FSNode.update cs n' e.2) else e) c with
                    | some m => FSNode.lookup cs m
                    | none => none) = some n'
              rw [lookupEntry_map_update cs n' c es k hk]
              exact ih k m h

theorem cleanup_empty_dirs_single (p : Path) (fs : FSNode) (r : Bool)
    (es : List (String × FSNode))
    (hl : FSNode.lookup p fs = some (FSNode.dir r es)) :
    cleanup_empty_dirs [p] false fs =
      (FSNode.update p (pruneNode (FSNode.dir r es)).1 fs,
       (pruneNode (FSNode.dir r es)).2) := by
  show pruneRoot false (fs, 0) p = _
  unfold pruneRoot
  rw [hl]
  rcases hp : pruneNode (FSNode.dir r es) with ⟨n', c⟩
  simp [hp]

/-- Spec scenario filesystem: `/tmp/t` with `a.tmp` (10 days old),
`b.tmp` (1 day old), `c.txt` (10 days old), at clock 1000000. -/
def fsScen : FSNode :=
  .dir true [("tmp", .dir true [("t", .dir true
    [("a.tmp", .file (1000000 - 10 * 86400) 100),
     ("b.tmp", .file (1000000 - 1 * 86400) 200),
     ("c.txt", .file (1000000 - 10 * 86400) 300)])])]

/-- A root that is a symbolic link to an old regular file named `a.tmp`. -/
def fsSymA : FSNode := .dir true [("a.tmp", .symlink (.toFile 0 5))]

/-- A root named `link` that is a symbolic link to an old regular file. -/
def fsSymB : FSNode := .dir true [("link", .symlink (.toFile 0 3))]

/-- Another symlink-root filesystem, used to instantiate the amended
no-symlink statement. -/
def fsSymW : FSNode := .dir true [("wl", .symlink (.toFile 0 4))]

/-- Spec scenario for exclusions: `/tmp/t` with an excluded subdirectory
`sub` holding an old matching file, plus a matching file outside it. -/
def fsExcl : FSNode :=
  .dir true [("tmp", .dir true [("t", .dir true
    [("sub", .dir true [("old.tmp", .file 0 1)]),
     ("keep.tmp", .file 0 2)])])]

/-- A directory `r` holding an old file, for the excluded-root case. -/
def fsExR : FSNode := .dir true [("r", .dir true [("f", .file 0 5)])]

/-- Deleter state with three existing files and no failing paths. -/
def delA : DelFS := ⟨[(["a"], 2), (["b"], 3), (["c"], 4)], [], []⟩

/-- Deleter state with two existing files, used for the failure-skip
instantiation. -/
def delB : DelFS := ⟨[(["u"], 7), (["v"], 8)], [], []⟩

/-- Tree with exactly one non-empty leaf (`root/a/b/f`): pruning must keep
the path to `f` and remove `c`, `d` and `e` (with `c` emptied in the same
pass by the removal of `d`). -/
def fsLeaf : FSNode :=
  .dir true [("root", .dir true
    [("a", .dir true [("b", .dir true [("f", .file 0 1)])]),
     ("c", .dir true [("d", .dir true [])]),
     ("e", .dir true [])])]

/-- All-empty tree used to instantiate the pruning theorem. -/
def fsAE : FSNode := .dir true [("r", .dir true [("c", .dir true [])])]

/-- Cascade tree `r2/c/d` (all empty): a live prune removes `d` and then
`c` in the same pass, so the live count is 2 while a dry run returns 0. -/
def fsCasc : FSNode :=
  .dir true [("r2", .dir true [("c", .dir true [("d", .dir true [])])])]

/-- C1: a path is selected by `get_files_to_delete` iff either it is a
root that `os.path.isfile` accepts (a regular file or a symlink to a
regular file), is strictly older than `age_days * 86400` seconds, and
the FULL path string matches the extension list (or that list is empty);
or it was enumerated by the walk of some directory root (exclusions
applied) as a regular non-symlink file, is strictly older than the
threshold, and its file NAME matches the extension list (or that list is
empty).  In the spec's scenario the selection is exactly `[a.tmp]`. -/
theorem C1_age_extension_selection :
    (∀ (fs : FSNode) (now : Int) (paths : List Path) (age_days : Nat)
        (exts : List String) (excl : List Path) (q : Path),
      q ∈ get_files_to_delete fs now paths age_days exts excl ↔
        (q ∈ paths ∧ ∃ n, FSNode.lookup q fs = some n ∧ n.isfile = true ∧
          ∃ m, n.statMtime = some m ∧ now - m > (age_days : Int) * 86400 ∧
            extMatch exts (joinPath q) = true) ∨
        (∃ p ∈ paths, ∃ n, FSNode.lookup p fs = some n ∧ n.osExists = true ∧
          n.isfile = false ∧ ∃ m s, (q, FSNode.file m s) ∈ enumNode excl p n ∧
            now - m > (age_days : Int) * 86400 ∧
            extMatch exts (lastName q) = true)) ∧
    get_files_to_delete fsScen 1000000 [["tmp", "t"]] 7 [".tmp"] [] =
      [["tmp", "t", "a.tmp"]] := by
  constructor
  · intro fs now paths age_days exts excl q
    rw [get_files_to_delete, List.mem_flatMap]
    constructor
    · rintro ⟨p, hp, hsel⟩
      rw [mem_selectRoot] at hsel
      rcases hsel with ⟨rfl, hA⟩ | hB
      · exact Or.inl ⟨hp, hA⟩
      · exact Or.inr ⟨p, hp, hB⟩
    · rintro (⟨hq, hA⟩ | ⟨p, hp, hB⟩)
      · exact ⟨q, hq, (mem_selectRoot fs now _ exts excl q q).2 (Or.inl ⟨rfl, hA⟩)⟩
      · exact ⟨p, hp, (mem_selectRoot fs now _ exts excl p q).2 (Or.inr hB)⟩
  · rfl

/-- C1: counterexample to the claim as stated.  A root path that is a
symbolic link to an old regular file is included in the returned list
even though it is not a regular file (it is a symlink), refuting the
"only if ... is a regular file" direction. -/
theorem C1_counterexample_symlink_root :
    get_files_to_delete fsSymA 604801 [["a.tmp"]] 7 [".tmp"] [] =
      [["a.tmp"]] ∧
    FSNode.lookup ["a.tmp"] fsSymA = some (.symlink (.toFile 0 5)) ∧
    (FSNode.symlink (.toFile 0 5)).islink = true :=
  ⟨rfl, rfl, rfl⟩

/-- C2: in a well-formed tree, any selected path whose node is a symbolic
link must be one of the root paths, and that link resolves to a regular
file; every selected path that is not a root is a genuine regular file.
(The walk itself never emits a symlink; only the root-is-file branch,
which uses `os.path.isfile` and never checks `islink`, can.) -/
theorem C2_no_symlink_selected (fs : FSNode) (now : Int) (paths : List Path)
    (age_days : Nat) (exts : List String) (excl : List Path) (q : Path)
    (t : SymTarget) (hwf : NodupFS fs)
    (hq : q ∈ get_files_to_delete fs now paths age_days exts excl)
    (hlink : FSNode.lookup q fs = some (.symlink t)) :
    q ∈ paths ∧ ∃ m s, t = SymTarget.toFile m s := by
  rw [get_files_to_delete, List.mem_flatMap] at hq
  obtain ⟨p, hp, hsel⟩ := hq
  rw [mem_selectRoot] at hsel
  rcases hsel with ⟨rfl, n, hn, hif, -⟩ | ⟨n, hn, -, -, m, s, hmem, -, -⟩
  · rw [hlink] at hn
    cases hn
    cases t with
    | toFile m s => exact ⟨hp, m, s, rfl⟩
    | toDir => exact absurd hif (by simp [FSNode.isfile])
    | broken => exact absurd hif (by simp [FSNode.isfile])
  · have hN : NodupFS n := nodupFS_lookup hwf hn
    obtain ⟨tl, htlne, rfl, hlk⟩ := enum_lookup hN hmem
    have hglobal : FSNode.lookup (p ++ tl) fs = some (FSNode.file m s) := by
      rw [lookup_append, hn]
      exact hlk
    rw [hlink] at hglobal
    simp at hglobal

/-- C2: witness instantiating the amended statement at a symlink root. -/
theorem C2_witness :
    (["wl"] : Path) ∈ [(["wl"] : Path)] ∧
    ∃ m s, SymTarget.toFile 0 4 = SymTarget.toFile m s :=
  C2_no_symlink_selected fsSymW 604801 [["wl"]] 7 [] [] ["wl"] (.toFile 0 4)
    (NodupFS.dir true _ (by simp)
      (by
        intro e he
        rw [List.mem_singleton] at he
        subst he
        exact NodupFS.symlink _))
    (by
      have h : get_files_to_delete fsSymW 604801 [["wl"]] 7 [] [] =
          [["wl"]] := rfl
      rw [h]
      exact List.mem_singleton.mpr rfl)
    rfl

/-- C2: counterexample to the claim as stated: the result of
`get_files_to_delete` contains a path that is a symbolic link, because a
root path that is a symlink to a regular file passes the
`os.path.isfile` test of line 126 and line 138's `islink` check is only
applied to files found by the walk. -/
theorem C2_counterexample_symlink_root_selected :
    get_files_to_delete fsSymB 604801 [["link"]] 7 [] [] = [["link"]] ∧
    FSNode.lookup ["link"] fsSymB = some (.symlink (.toFile 0 3)) ∧
    (FSNode.symlink (.toFile 0 3)).islink = true :=
  ⟨rfl, rfl, rfl⟩

/-- C3: when no root path lies inside (or equals) an excluded directory,
no selected path lies strictly beneath any excluded directory — the
pruning of line 134 drops every excluded subdirectory before the walk
descends into it.  (The exclusion set is only consulted for
subdirectories met during a walk, which is why the roots must be outside
it.) -/
theorem C3_exclusion_not_descended (fs : FSNode) (now : Int)
    (paths : List Path) (age_days : Nat) (exts : List String)
    (excl : List Path)
    (hroots : ∀ r ∈ paths, ∀ d ∈ excl, ∀ w, r ≠ d ++ w) :
    ∀ q ∈ get_files_to_delete fs now paths age_days exts excl,
      ∀ d ∈ excl, ∀ w, w ≠ [] → q ≠ d ++ w := by
  intro q hq d hd w hw
  rw [get_files_to_delete, List.mem_flatMap] at hq
  obtain ⟨p, hp, hsel⟩ := hq
  rw [mem_selectRoot] at hsel
  rcases hsel with ⟨rfl, -⟩ | ⟨n, hn, -, -, m, s, hmem, -, -⟩
  · exact hroots q hp d hd w
  · exact enum_not_below hd n p (hroots p hp d hd) q _ hmem w hw

/-- C3: witness for the amended statement on the spec's exclusion
scenario; in particular `/tmp/t/sub/old.tmp` is not selected although it
matches age and extension. -/
theorem C3_witness :
    (∀ r ∈ [(["tmp", "t"] : Path)], ∀ d ∈ [(["tmp", "t", "sub"] : Path)],
      ∀ w, r ≠ d ++ w) ∧
    (["tmp", "t", "sub", "old.tmp"] : Path) ∉
      get_files_to_delete fsExcl (30 * 86400) [["tmp", "t"]] 7 [".tmp"]
        [["tmp", "t", "sub"]] ∧
    (∀ q ∈ get_files_to_delete fsExcl (30 * 86400) [["tmp", "t"]] 7 [".tmp"]
        [["tmp", "t", "sub"]],
      ∀ d ∈ [(["tmp", "t", "sub"] : Path)], ∀ w, w ≠ [] → q ≠ d ++ w) := by
  have hroots : ∀ r ∈ [(["tmp", "t"] : Path)],
      ∀ d ∈ [(["tmp", "t", "sub"] : Path)], ∀ w, r ≠ d ++ w := by
    intro r hr d hd w heq
    rw [List.mem_singleton] at hr hd
    subst hr
    subst hd
    have hlen := congrArg List.length heq
    simp only [List.length_append, List.length_cons, List.length_nil] at hlen
    omega
  refine ⟨hroots, ?_, C3_exclusion_not_descended fsExcl (30 * 86400)
    [["tmp", "t"]] 7 [".tmp"] [["tmp", "t", "sub"]] hroots⟩
  have h : get_files_to_delete fsExcl (30 * 86400) [["tmp", "t"]] 7 [".tmp"]
      [["tmp", "t", "sub"]] = [["tmp", "t", "keep.tmp"]] := rfl
  rw [h]
  simp

/-- C3: counterexample to the claim as stated: when the excluded
directory is itself passed as a root, `os.walk` starts inside it (the
pruning of line 134 only filters subdirectories), so a file strictly
beneath the excluded directory is selected. -/
theorem C3_counterexample_excluded_root :
    get_files_to_delete fsExR 604801 [["r"]] 7 [] [["r"]] = [["r", "f"]] ∧
    (["r"] : Path) ∈ [(["r"] : Path)] ∧
    (["r", "f"] : Path) = ["r"] ++ ["f"] ∧ (["f"] : Path) ≠ [] :=
  ⟨rfl, List.mem_singleton.mpr rfl, rfl, by simp⟩

/-- C4: `cleanup_files` in dry-run mode returns exactly `(0, 0)` and
leaves the filesystem state unchanged, for every candidate list and
every state. -/
theorem C4_dry_run_no_mutation (files_list : List Path) (fs : DelFS) :
    cleanup_files files_list true fs = ((0, 0), fs) :=
  cleanup_files_dry files_list fs

/-- C5: in live mode, on pairwise-distinct candidates that all exist and
on which neither `getsize` nor `remove` fails, `cleanup_files` returns
`(N, S)` with `N` the number of candidates and `S` the sum of their
sizes (read immediately before each removal; with no interference these
equal the initial sizes), and the final state is the initial one with
exactly those entries removed. -/
theorem C5_live_run_deletes_all (fl : List Path) (fs : DelFS)
    (h1 : fl.Nodup)
    (h2 : ∀ p ∈ fl, (assocFind fs.files p).isSome = true ∧
      p ∉ fs.denied ∧ p ∉ fs.removeDenied) :
    cleanup_files fl false fs =
      ((fl.length, (fl.filterMap (assocFind fs.files)).sum),
       { fs with files := fs.files.filter (fun e => e.1 ∉ fl) }) :=
  cleanup_files_live fl fs h1 h2

/-- C5: witness instantiating the live-run theorem on two existing
files of sizes 2 and 3. -/
theorem C5_witness :
    ([["a"], ["b"]] : List Path).Nodup ∧
    (∀ p ∈ ([["a"], ["b"]] : List Path),
      (assocFind delA.files p).isSome = true ∧
      p ∉ delA.denied ∧ p ∉ delA.removeDenied) ∧
    cleanup_files [["a"], ["b"]] false delA = ((2, 5), ⟨[(["c"], 4)], [], []⟩) :=
  ⟨by decide, by decide,
   (C5_live_run_deletes_all [["a"], ["b"]] delA (by decide) (by decide)).trans
     rfl⟩

/-- C6: a candidate on which sizing fails (`getsize` denied or file
absent) or removal fails (in live mode) contributes nothing and leaves
the state untouched, so the whole run behaves exactly as if that
candidate were absent from the list: processing of the remaining
candidates is unaffected and nothing is raised. -/
theorem C6_failure_isolated (l1 l2 : List Path) (p : Path) (dry : Bool)
    (fs : DelFS)
    (h : p ∈ (cleanup_files l1 dry fs).2.denied ∨
      assocFind (cleanup_files l1 dry fs).2.files p = none ∨
      (dry = false ∧ p ∈ (cleanup_files l1 dry fs).2.removeDenied)) :
    cleanup_files (l1 ++ p :: l2) dry fs = cleanup_files (l1 ++ l2) dry fs := by
  rw [cleanup_files] at h
  show (l1 ++ p :: l2).foldl (cleanupStep dry) ((0, 0), fs) =
    (l1 ++ l2).foldl (cleanupStep dry) ((0, 0), fs)
  rw [List.foldl_append, List.foldl_append, List.foldl_cons,
    cleanupStep_failed dry _ p h]

/-- C6: witness — a missing middle candidate is skipped and the run
equals the run without it. -/
theorem C6_witness :
    assocFind (cleanup_files [["u"]] false delB).2.files ["x"] = none ∧
    cleanup_files ([["u"]] ++ ["x"] :: [["v"]]) false delB =
      cleanup_files ([["u"]] ++ [["v"]]) false delB :=
  ⟨rfl, C6_failure_isolated [["u"]] [["v"]] ["x"] false delB
    (Or.inr (Or.inl rfl))⟩

/-- C7: a root that does not exist (including a dangling symlink) or
whose directory listing is permission-denied contributes nothing: the
selector skips it and processes the remaining roots exactly as if it
were absent, always returning a list (the embedding is total, so no
exception can escape). -/
theorem C7_missing_root_skipped (fs : FSNode) (now : Int) (l1 l2 : List Path)
    (r : Path) (age_days : Nat) (exts : List String) (excl : List Path)
    (h : FSNode.lookup r fs = none ∨
      FSNode.lookup r fs = some (.symlink .broken) ∨
      ∃ es, FSNode.lookup r fs = some (.dir false es)) :
    get_files_to_delete fs now (l1 ++ r :: l2) age_days exts excl =
      get_files_to_delete fs now (l1 ++ l2) age_days exts excl := by
  have hnil : selectRoot fs now ((age_days : Int) * 86400) exts excl r = [] := by
    rcases h with h | h | ⟨es, h⟩
    · unfold selectRoot; rw [h]
    · unfold selectRoot; rw [h]; rfl
    · unfold selectRoot; rw [h]; rfl
  show (l1 ++ r :: l2).flatMap _ = (l1 ++ l2).flatMap _
  rw [List.flatMap_append, List.flatMap_append, List.flatMap_cons, hnil,
    List.nil_append]

/-- C7: witness — a missing root in an empty tree is skipped. -/
theorem C7_witness :
    FSNode.lookup ["gone"] (FSNode.dir true []) = none ∧
    get_files_to_delete (FSNode.dir true []) 0 ([] ++ ["gone"] :: []) 7 [] [] =
      get_files_to_delete (FSNode.dir true []) 0 ([] ++ []) 7 [] [] :=
  ⟨rfl, C7_missing_root_skipped (FSNode.dir true []) 0 [] [] ["gone"] 7 [] []
    (Or.inl rfl)⟩

/-- C8: the pruner works bottom-up.  Applied live to a root holding a
tree in which every node is a readable directory (all leaves empty), one
call removes every one of its `countSubdirs` strict subdirectories and
leaves the root itself in place as a (now empty) directory; applied to
the concrete tree with one non-empty leaf `root/a/b/f`, it removes
exactly `d`, `c` (emptied by `d`'s removal in the same pass) and `e`,
keeping the path from the root to the leaf. -/
theorem C8_bottom_up_prune :
    (∀ (fs : FSNode) (p : Path) (n : FSNode),
      FSNode.lookup p fs = some n → AllEmpty n →
      cleanup_empty_dirs [p] false fs =
        (FSNode.update p (FSNode.dir true []) fs, n.countSubdirs) ∧
      FSNode.lookup p (FSNode.update p (FSNode.dir true []) fs) =
        some (FSNode.dir true [])) ∧
    cleanup_empty_dirs [["root"]] false fsLeaf =
      (.dir true [("root", .dir true
        [("a", .dir true [("b", .dir true [("f", .file 0 1)])])])], 3) := by
  constructor
  · intro fs p n hl hae
    obtain ⟨es, rfl⟩ := allEmpty_shape hae
    have hp := pruneNode_allEmpty hae
    have h1 := cleanup_empty_dirs_single p fs true es hl
    rw [hp] at h1
    exact ⟨h1, lookup_update_self _ p fs _ hl⟩
  · rfl

/-- C8: witness instantiating the all-empty part on a two-level tree. -/
theorem C8_witness :
    cleanup_empty_dirs [["r"]] false fsAE =
      (FSNode.update ["r"] (FSNode.dir true []) fsAE,
       (FSNode.dir true [("c", FSNode.dir true [])]).countSubdirs) ∧
    FSNode.lookup ["r"] (FSNode.update ["r"] (FSNode.dir true []) fsAE) =
      some (FSNode.dir true []) :=
  C8_bottom_up_prune.1 fsAE ["r"] (FSNode.dir true [("c", FSNode.dir true [])])
    rfl
    (AllEmpty.dir _ (by
      intro e he
      rw [List.mem_singleton] at he
      subst he
      exact AllEmpty.dir [] (by
        intro e he
        exact absurd he (List.not_mem_nil e))))

/-- C9: the selector is a pure function of the filesystem state, the
clock and its arguments — two calls on identical inputs return identical
lists — and its output is a subsequence of the traversal-order candidate
enumeration, so matching files appear in traversal order. -/
theorem C9_deterministic_traversal_order :
    (∀ (fs : FSNode) (now : Int) (paths : List Path) (age_days : Nat)
        (exts : List String) (excl : List Path),
      get_files_to_delete fs now paths age_days exts excl =
        get_files_to_delete fs now paths age_days exts excl) ∧
    (∀ (fs : FSNode) (now : Int) (paths : List Path) (age_days : Nat)
        (exts : List String) (excl : List Path),
      List.Sublist (get_files_to_delete fs now paths age_days exts excl)
        (reachableCands fs paths excl)) := by
  constructor
  · intro _ _ _ _ _ _
    rfl
  · intro fs now paths age_days exts excl
    rw [get_files_to_delete, reachableCands]
    exact flatMap_sublist _ _ paths fun p _ =>
      selectRoot_sublist fs now _ exts excl p

/-- C10: `cleanup_empty_dirs` in dry-run mode removes nothing, leaves the
tree unchanged and always returns 0 (line 211's increment is only in the
live branch); on the cascade tree `r2/c/d` a dry run returns 0 while the
subsequent live run removes 2 directories, so the dry-run value can
differ from the live count. -/
theorem C10_dry_run_returns_zero :
    (∀ (paths : List Path) (fs : FSNode),
      cleanup_empty_dirs paths true fs = (fs, 0)) ∧
    cleanup_empty_dirs [["r2"]] true fsCasc = (fsCasc, 0) ∧
    (cleanup_empty_dirs [["r2"]] false fsCasc).2 = 2 :=
  ⟨fun paths fs => cleanup_empty_dirs_dry paths fs, rfl, rfl⟩

end SystemCleanup
